import Mathlib

/-
Verification of the test-data lifecycle core of the Playwright-Automation
repository: FactoryManager (src/core/data/factory.manager.ts),
FixtureManager (fixture manager in the same module), and DatabaseSeeder
(src/core/data/database.seeder.ts).

The TypeScript classes are shallowly embedded:
  * JS `Map` objects become association lists with first-match lookup
    (registration never duplicates keys in the scenarios considered, and
    `setKey` models `Map.set`'s overwrite-or-append behaviour);
  * async control flow of `FixtureManager.load` is embedded as a
    deterministic cooperative event-loop semantics: an async function runs
    synchronously until its first `await`; awaiting an already-settled
    promise enqueues the continuation at the back of a FIFO microtask
    queue; awaiting a pending promise parks the continuation on that
    promise; `Promise.all` parks on a list of promises;
  * user-supplied setup / seed callbacks are modelled by configuration data
    (number of internal awaits, success / failure) and append start /
    completion events to a log, which is how the spec's scenarios observe
    execution order;
  * recursion that the source does not bound is bounded by explicit fuel;
    a `none` result means the computation did not finish within the fuel.
-/

namespace PWData

/-- `Map.get`-style lookup in an association list (first match wins). -/
def lookupKey {α : Type} : List (String × α) → String → Option α
  | [], _ => none
  | (k, v) :: rest, key => if key = k then some v else lookupKey rest key

/-- `Map.set`-style update: overwrite an existing key in place, otherwise
append at the end (JS `Map` preserves insertion order). -/
def setKey {α : Type} (l : List (String × α)) (key : String) (v : α) :
    List (String × α) :=
  if (lookupKey l key).isSome then
    l.map (fun p => if p.1 = key then (key, v) else p)
  else
    l ++ [(key, v)]

/-! ## FactoryManager (src/core/data/factory.manager.ts, lines 15-163) -/

/-- `CleanupStrategy` from data.types.ts. -/
inductive CStrat where
  | afterTest
  | afterSuite
  | afterAll
  | manual
deriving DecidableEq, Repr, BEq

/-- Entity records are opaque attribute maps. -/
abbrev Attrs := List (String × String)

/-- `FactoryDefinition` from data.types.ts: the attribute generator is an
arbitrary function re-invoked per creation; hooks are optional functions
that may throw (`Except.error`). The source's `afterCreate` returns the
entity, but `create` ignores that return value, so only success/failure of
the hook is observable. -/
structure FactoryDefinition where
  entity : String
  cleanupStrategy : Option CStrat
  attributes : Unit → Attrs
  beforeCreate : Option (Attrs → Except String Attrs)
  afterCreate : Option (Attrs → Except String Attrs)

/-- `FactoryOptions` (fields relevant to `create`). -/
structure FactoryOptions where
  transient : Bool := false
  attributes : Option Attrs := none

/-- The manager's mutable state: `this.factories`, `this.state.entities`
(tracked-entity buckets) and `this.state.cleanupStrategies`. -/
structure FactoryState where
  factories : List (String × FactoryDefinition)
  entities : List (String × List Attrs)
  cleanupStrategies : List (String × CStrat)

namespace FactoryManager

/-- `FactoryManager.define` (factory.manager.ts lines 41-48): registers the
definition and its cleanup strategy (defaulting to `afterTest`). -/
def define (st : FactoryState) (d : FactoryDefinition) : FactoryState :=
  { st with
      factories := setKey st.factories d.entity d
      cleanupStrategies :=
        setKey st.cleanupStrategies d.entity (d.cleanupStrategy.getD .afterTest) }

/-- `FactoryManager.trackEntity` (lines 116-121): push the entity onto the
bucket for its entity name, creating the bucket if absent. -/
def trackEntity (st : FactoryState) (entityName : String) (e : Attrs) :
    FactoryState :=
  match lookupKey st.entities entityName with
  | none => { st with entities := st.entities ++ [(entityName, [e])] }
  | some es => { st with entities := setKey st.entities entityName (es ++ [e]) }

/-- `FactoryManager.create` (lines 53-95). Order of operations in the
source: generate attributes, shallow-merge overrides, `beforeCreate` hook,
materialise the entity, `afterCreate` hook, and only then `trackEntity`
(when not transient). A hook throwing propagates; the only state mutation
is `trackEntity`, so on error the state is returned unchanged. -/
def create (st : FactoryState) (entityName : String) (opts : FactoryOptions) :
    Except String Attrs × FactoryState :=
  match lookupKey st.factories entityName with
  | none => (.error ("Factory not found for entity: " ++ entityName), st)
  | some factory =>
    let base := factory.attributes ()
    let merged := match opts.attributes with
      | some ov => ov ++ base
      | none => base
    match (match factory.beforeCreate with
           | some h => h merged
           | none => .ok merged) with
    | .error e => (.error e, st)
    | .ok finalAttrs =>
      let entity := finalAttrs
      match (match factory.afterCreate with
             | some h => (h entity).map (fun _ => ())
             | none => .ok ()) with
      | .error e => (.error e, st)
      | .ok _ =>
        let st' := if opts.transient then st else trackEntity st entityName entity
        (.ok entity, st')

/-- The bucket-removal loop of `FactoryManager.cleanup` (lines 126-134):
for every bucket whose registered strategy equals the requested one, the
bucket is deleted (the internal `cleanupEntities` only logs); other
buckets are kept untouched. -/
def cleanupLoop (strategies : List (String × CStrat)) (strategy : CStrat) :
    List (String × List Attrs) → List (String × List Attrs)
  | [] => []
  | (n, es) :: rest =>
    if lookupKey strategies n = some strategy then
      cleanupLoop strategies strategy rest
    else
      (n, es) :: cleanupLoop strategies strategy rest

/-- `FactoryManager.cleanup` (lines 126-134): only `state.entities` is
modified; `factories` and `cleanupStrategies` are untouched. -/
def cleanup (st : FactoryState) (strategy : CStrat) : FactoryState :=
  { st with entities := cleanupLoop st.cleanupStrategies strategy st.entities }

end FactoryManager

/-- The bucket loop is exactly a filter on the registered strategy. -/
theorem cleanupLoop_eq_filter (strategies : List (String × CStrat))
    (s : CStrat) (l : List (String × List Attrs)) :
    FactoryManager.cleanupLoop strategies s l
      = l.filter (fun p => !(decide (lookupKey strategies p.1 = some s))) := by
  induction l with
  | nil => rfl
  | cons hd tl ih =>
    obtain ⟨n, es⟩ := hd
    by_cases h : lookupKey strategies n = some s
    · simp [FactoryManager.cleanupLoop, h, List.filter, ih]
    · simp [FactoryManager.cleanupLoop, h, List.filter, ih]

/-- Claim C9: `cleanup(strategy)` removes exactly the tracked-entity
buckets whose entity type is registered with that cleanup strategy;
buckets registered under any other strategy (or with no registered
strategy) are kept intact, and the factory registry and strategy registry
are unchanged, so those entity types remain creatable and re-trackable. -/
theorem cleanup_removes_exactly_matching_buckets (st : FactoryState) (s : CStrat) :
    (FactoryManager.cleanup st s).entities
        = st.entities.filter (fun p => !(decide (lookupKey st.cleanupStrategies p.1 = some s)))
    ∧ (FactoryManager.cleanup st s).factories = st.factories
    ∧ (FactoryManager.cleanup st s).cleanupStrategies = st.cleanupStrategies := by
  refine ⟨?_, rfl, rfl⟩
  simpa [FactoryManager.cleanup] using
    cleanupLoop_eq_filter st.cleanupStrategies s st.entities

/-- A factory whose `afterCreate` hook always throws. -/
def boomFactoryDef : FactoryDefinition where
  entity := "user"
  cleanupStrategy := some .afterTest
  attributes := fun _ => [("name", "x")]
  beforeCreate := none
  afterCreate := some (fun _ => .error "afterCreate boom")

/-- State with `boomFactoryDef` registered and nothing tracked. -/
def boomState : FactoryState :=
  FactoryManager.define ⟨[], [], []⟩ boomFactoryDef

/-- Counterexample to claim C3: registering a factory whose `afterCreate`
hook throws and calling `create("user", {})` (transient defaults to false)
propagates the hook error, yet the `"user"` bucket does not exist: the
record was NOT appended to the cleanup bucket before the hook ran, because
`trackEntity` only runs after `afterCreate` succeeds (lines 80-87). -/
theorem create_afterCreate_throw_untracked_cex :
    (FactoryManager.create boomState "user" {}).1 = .error "afterCreate boom"
    ∧ (FactoryManager.create boomState "user" {}).2.entities = []
    ∧ lookupKey (FactoryManager.create boomState "user" {}).2.entities "user" = none := by
  refine ⟨rfl, rfl, rfl⟩

/-- The attribute set reaching the first hook: generated defaults
shallow-merged with the caller's overrides (`{ ...attributes,
...options.attributes }`). -/
def mergedAttrs (f : FactoryDefinition) (opts : FactoryOptions) : Attrs :=
  match opts.attributes with
  | some ov => ov ++ f.attributes ()
  | none => f.attributes ()

/-- Claim C3 (corrected): in `create(entityType, options)` with transient
false, an `afterCreate` hook that throws on the materialized entity
propagates its error and the record has NOT been appended to any cleanup
bucket (tracking happens only after the hook succeeds), and a
`beforeCreate` hook that throws on the merged attributes likewise leaves
no record created or tracked: in both cases the manager state is
returned unchanged. -/
theorem create_hook_throw_leaves_state_unchanged :
    (∀ (st : FactoryState) (name : String) (f : FactoryDefinition)
        (opts : FactoryOptions) (h : Attrs → Except String Attrs) (e : String),
        lookupKey st.factories name = some f →
        f.beforeCreate = none →
        f.afterCreate = some h →
        h (mergedAttrs f opts) = .error e →
        FactoryManager.create st name opts = (.error e, st))
    ∧ (∀ (st : FactoryState) (name : String) (f : FactoryDefinition)
        (opts : FactoryOptions) (h : Attrs → Except String Attrs) (e : String),
        lookupKey st.factories name = some f →
        f.beforeCreate = some h →
        h (mergedAttrs f opts) = .error e →
        FactoryManager.create st name opts = (.error e, st)) := by
  constructor
  · intro st name f opts h e hf hb ha hthrow
    simp only [mergedAttrs] at hthrow
    simp [FactoryManager.create, hf, hb, ha, hthrow, Except.map]
  · intro st name f opts h e hf hb hthrow
    simp only [mergedAttrs] at hthrow
    simp [FactoryManager.create, hf, hb, hthrow]

/-- A factory whose `beforeCreate` hook always throws. -/
def preBoomFactoryDef : FactoryDefinition where
  entity := "proj"
  cleanupStrategy := none
  attributes := fun _ => [("title", "t")]
  beforeCreate := some (fun _ => .error "beforeCreate boom")
  afterCreate := none

/-- State with `preBoomFactoryDef` registered. -/
def preBoomState : FactoryState :=
  FactoryManager.define ⟨[], [], []⟩ preBoomFactoryDef

/-- Witness for the corrected claim C3 at concrete inputs: the
`afterCreate` case on `boomState` and the `beforeCreate` case on
`preBoomState`. -/
theorem create_hook_throw_leaves_state_unchanged_witness :
    FactoryManager.create boomState "user" {} = (.error "afterCreate boom", boomState)
    ∧ FactoryManager.create preBoomState "proj" {}
        = (.error "beforeCreate boom", preBoomState) := by
  constructor
  · exact create_hook_throw_leaves_state_unchanged.1 boomState "user" boomFactoryDef {}
      (fun _ => .error "afterCreate boom") "afterCreate boom" rfl rfl rfl rfl
  · exact create_hook_throw_leaves_state_unchanged.2 preBoomState "proj" preBoomFactoryDef {}
      (fun _ => .error "beforeCreate boom") "beforeCreate boom" rfl rfl rfl

/-! ## DatabaseSeeder (src/core/data/database.seeder.ts)

`register(name, seeder, config)` stores the seed function in `this.seeders`
and its config in `this.config` under the same key, so both maps always
have the same key set; the embedding uses a single association list.  A
seed function is modelled by configuration: it appends its seeder name to
an execution log and optionally rejects.  `truncateTable` only emits a
debug log in the source, so it has no observable effect here. -/

/-- `SeederConfig` from data.types.ts plus the behaviour of the registered
seed function (`fails` = the seed function rejects when invoked). -/
structure SeederDef where
  deps : Option (List String)
  envs : Option (List String)
  fails : Bool := false

/-- The seeder registry: `this.seeders` / `this.config` combined. -/
abbrev SeedEnv := List (String × SeederDef)

/-- `config.get(name)?.dependencies ?? []` — the dependency list the DFS
iterates over (absent config or absent field both yield no iterations). -/
def depsOf (cfg : SeedEnv) (name : String) : List String :=
  match lookupKey cfg name with
  | some c => c.deps.getD []
  | none => []

/-- Sort state of `sortByDependencies`: the `visited` set and the `sorted`
output array. -/
structure SortSt where
  visited : List String
  sorted : List String

namespace DatabaseSeeder

/-- Exception propagation for a fuelled step: `none` (out of fuel) and
thrown errors short-circuit, a normal result continues with `k`. -/
def exStep (r : Option (Except String SortSt))
    (k : SortSt → Option (Except String SortSt)) : Option (Except String SortSt) :=
  match r with
  | none => none
  | some (.error e) => some (.error e)
  | some (.ok st) => k st

/-- The dependency loop inside `visit` (database.seeder.ts lines 109-116):
for each declared dependency in order, throw `Dependency not found` if it
is not a registered seeder, otherwise visit it recursively (`f` is the
recursive `visit` call). -/
def visitDeps (cfg : SeedEnv) (parent : String)
    (f : SortSt → String → Option (Except String SortSt)) :
    SortSt → List String → Option (Except String SortSt)
  | st, [] => some (.ok st)
  | st, d :: ds =>
    if (lookupKey cfg d).isSome then
      exStep (f st d) (fun st' => visitDeps cfg parent f st' ds)
    else
      some (.error ("Dependency not found: " ++ d ++ " (required by " ++ parent ++ ")"))

/-- `visit` inside `sortByDependencies` (lines 103-119): skip if already
visited, else mark visited, process the declared dependencies, then append
the name to the sorted output.  The source recursion is unbounded; fuel
bounds it here. -/
def visit (cfg : SeedEnv) : Nat → SortSt → String → Option (Except String SortSt)
  | 0, _, _ => none
  | fuel + 1, st, name =>
    if name ∈ st.visited then some (.ok st)
    else
      exStep
        (visitDeps cfg name (visit cfg fuel) ⟨name :: st.visited, st.sorted⟩
          (depsOf cfg name))
        (fun st2 => some (.ok ⟨st2.visited, st2.sorted ++ [name]⟩))

/-- The top-level loop of `sortByDependencies` (lines 121-123): visit each
requested name in order.  Requested names are NOT checked against the
registry here — only dependencies are. -/
def visitAll (cfg : SeedEnv) (fuel : Nat) : SortSt → List String → Option (Except String SortSt)
  | st, [] => some (.ok st)
  | st, n :: ns =>
    exStep (visit cfg fuel st n) (fun st' => visitAll cfg fuel st' ns)

/-- The environment gate of `runSeeder` (line 76): skip when an
environment list is declared and the current environment is not in it. -/
def envSkips (c : SeederDef) (curEnv : String) : Bool :=
  match c.envs with
  | some allowed => decide (curEnv ∉ allowed)
  | none => false

/-- `runSeeder` (lines 64-94): throw `Seeder not found` for an
unregistered name; skip silently when the environment gate applies;
otherwise invoke the seed function (which appends its name to the log and
optionally rejects). -/
def runSeeder (cfg : SeedEnv) (curEnv : String) (log : List String)
    (name : String) : Except String Unit × List String :=
  match lookupKey cfg name with
  | none => (.error ("Seeder not found: " ++ name), log)
  | some c =>
    if envSkips c curEnv then (.ok (), log)
    else if c.fails then (.error ("Seeder failed: " ++ name), log ++ [name])
    else (.ok (), log ++ [name])

/-- The sequential execution loop of `seed` (lines 48-50): run each sorted
name in order, aborting at the first error. -/
def runList (cfg : SeedEnv) (curEnv : String) :
    List String → List String → Except String Unit × List String
  | log, [] => (.ok (), log)
  | log, n :: ns =>
    match runSeeder cfg curEnv log n with
    | (.error e, log') => (.error e, log')
    | (.ok _, log') => runList cfg curEnv log' ns

/-- `DatabaseSeeder.seed(names)` (lines 45-51): sort by dependencies
(throwing during the sort happens before any seeder runs, hence the empty
log on that path), then run the sorted names sequentially. -/
def seed (cfg : SeedEnv) (curEnv : String) (fuel : Nat) (names : List String) :
    Option (Except String Unit × List String) :=
  match visitAll cfg fuel ⟨[], []⟩ names with
  | none => none
  | some (.error e) => some (.error e, [])
  | some (.ok st) => some (runList cfg curEnv [] st.sorted)

end DatabaseSeeder

/-- A registry with a single well-formed seeder `a`. -/
def seedEnvA : SeedEnv := [("a", { deps := none, envs := none })]

/-- Counterexample to claim C5: `seed(["a", "bogus"])` where `"bogus"` is
a requested name that is not a registered seeder.  The sort phase does not
check requested names, so `a`'s seed function executes (log `["a"]`)
before the unknown-name error surfaces from `runSeeder("bogus")`: the
error is NOT raised before every seeding side effect. -/
theorem seed_unknown_requested_name_cex :
    DatabaseSeeder.seed seedEnvA "test" 10 ["a", "bogus"]
      = some (.error "Seeder not found: bogus", ["a"]) := by
  rfl

/-- The only error the sort phase can throw: some declared dependency is
not a registered seeder. -/
def UnregisteredDepErr (cfg : SeedEnv) (e : String) : Prop :=
  ∃ d req, lookupKey cfg d = none
    ∧ e = "Dependency not found: " ++ d ++ " (required by " ++ req ++ ")"

theorem visitDeps_error_shape (cfg : SeedEnv) (parent : String)
    (f : SortSt → String → Option (Except String SortSt))
    (hf : ∀ st d e, f st d = some (.error e) → UnregisteredDepErr cfg e) :
    ∀ ds st e, DatabaseSeeder.visitDeps cfg parent f st ds = some (.error e) →
      UnregisteredDepErr cfg e := by
  intro ds
  induction ds with
  | nil =>
    intro st e h
    simp [DatabaseSeeder.visitDeps] at h
  | cons d ds ih =>
    intro st e h
    simp only [DatabaseSeeder.visitDeps] at h
    by_cases hreg : (lookupKey cfg d).isSome
    · rw [if_pos hreg] at h
      cases hfd : f st d with
      | none =>
        rw [hfd] at h
        simp [DatabaseSeeder.exStep] at h
      | some r =>
        cases r with
        | error e' =>
          rw [hfd] at h
          simp only [DatabaseSeeder.exStep, Option.some.injEq, Except.error.injEq] at h
          subst h
          exact hf st d e' hfd
        | ok st1 =>
          rw [hfd] at h
          simp only [DatabaseSeeder.exStep] at h
          exact ih st1 e h
    · rw [if_neg hreg] at h
      simp only [Option.some.injEq, Except.error.injEq] at h
      refine ⟨d, parent, ?_, h.symm⟩
      cases hlk : lookupKey cfg d with
      | none => rfl
      | some c =>
        rw [hlk] at hreg
        simp at hreg

theorem visit_error_shape (cfg : SeedEnv) :
    ∀ fuel st name e, DatabaseSeeder.visit cfg fuel st name = some (.error e) →
      UnregisteredDepErr cfg e := by
  intro fuel
  induction fuel with
  | zero =>
    intro st name e h
    simp [DatabaseSeeder.visit] at h
  | succ fuel ih =>
    intro st name e h
    simp only [DatabaseSeeder.visit] at h
    by_cases hvis : name ∈ st.visited
    · rw [if_pos hvis] at h
      simp at h
    · rw [if_neg hvis] at h
      cases hvd : DatabaseSeeder.visitDeps cfg name (DatabaseSeeder.visit cfg fuel)
          ⟨name :: st.visited, st.sorted⟩ (depsOf cfg name) with
      | none =>
        rw [hvd] at h
        simp [DatabaseSeeder.exStep] at h
      | some r =>
        cases r with
        | error e' =>
          rw [hvd] at h
          simp only [DatabaseSeeder.exStep, Option.some.injEq, Except.error.injEq] at h
          subst h
          exact visitDeps_error_shape cfg name (DatabaseSeeder.visit cfg fuel)
            (fun st d e hh => ih st d e hh) (depsOf cfg name) _ e' hvd
        | ok st2 =>
          rw [hvd] at h
          simp [DatabaseSeeder.exStep] at h

theorem visitAll_error_shape (cfg : SeedEnv) (fuel : Nat) :
    ∀ names st e, DatabaseSeeder.visitAll cfg fuel st names = some (.error e) →
      UnregisteredDepErr cfg e := by
  intro names
  induction names with
  | nil =>
    intro st e h
    simp [DatabaseSeeder.visitAll] at h
  | cons n ns ih =>
    intro st e h
    simp only [DatabaseSeeder.visitAll] at h
    cases hv : DatabaseSeeder.visit cfg fuel st n with
    | none =>
      rw [hv] at h
      simp [DatabaseSeeder.exStep] at h
    | some r =>
      cases r with
      | error e' =>
        rw [hv] at h
        simp only [DatabaseSeeder.exStep, Option.some.injEq, Except.error.injEq] at h
        subst h
        exact visit_error_shape cfg fuel st n e' hv
      | ok st1 =>
        rw [hv] at h
        simp only [DatabaseSeeder.exStep] at h
        exact ih st1 e h

/-- Claim C5 (corrected): when the dependency DFS of `sortByDependencies`
rejects, `seed` propagates that error with an empty execution log, i.e.
before any seed function has been invoked — and the only error the sort
phase can produce is an unregistered-dependency error for some declared
dependency.  (An unknown requested name, by contrast, is only detected by
`runSeeder` when its turn comes, after earlier seeders have already
run.) -/
theorem seed_sort_error_runs_nothing (cfg : SeedEnv) (curEnv : String)
    (fuel : Nat) (names : List String) (e : String)
    (hsort : DatabaseSeeder.visitAll cfg fuel ⟨[], []⟩ names = some (.error e)) :
    DatabaseSeeder.seed cfg curEnv fuel names = some (.error e, [])
    ∧ UnregisteredDepErr cfg e := by
  refine ⟨by simp [DatabaseSeeder.seed, hsort], ?_⟩
  exact visitAll_error_shape cfg fuel names ⟨[], []⟩ e hsort

/-- A registry where seeder `a` declares an unregistered dependency. -/
def seedEnvBadDep : SeedEnv := [("a", { deps := some ["missing"], envs := none })]

/-- Witness for the corrected claim C5: with `a` depending on the
unregistered seeder `missing`, the sort rejects and `seed(["a"])` fails
with an empty execution log. -/
theorem seed_sort_error_runs_nothing_witness :
    DatabaseSeeder.seed seedEnvBadDep "test" 10 ["a"]
      = some (.error "Dependency not found: missing (required by a)", []) :=
  (seed_sort_error_runs_nothing seedEnvBadDep "test" 10 ["a"]
    "Dependency not found: missing (required by a)" rfl).1

/-! ### Ordering infrastructure for the seeder DFS -/

/-- `x` occurs strictly before (some occurrence of) `y` in `l`. -/
def Bef (l : List String) (x y : String) : Prop :=
  ∃ l1 l2, l = l1 ++ y :: l2 ∧ x ∈ l1

theorem Bef.append_right {l l' : List String} {x y : String}
    (h : Bef l x y) : Bef (l ++ l') x y := by
  obtain ⟨l1, l2, heq, hmem⟩ := h
  exact ⟨l1, l2 ++ l', by simp [heq], hmem⟩

theorem Bef.concat {l : List String} {x y : String} (h : x ∈ l) :
    Bef (l ++ [y]) x y :=
  ⟨l, [], rfl, h⟩

/-- Transfer strict precedence along a duplicate-free super-list to a
sub-list containing both elements. -/
theorem Bef.sublist {x y : String} :
    ∀ {l l' : List String}, List.Sublist l' l → l.Nodup → Bef l x y →
      x ∈ l' → y ∈ l' → Bef l' x y := by
  intro l l' hsub
  induction hsub with
  | slnil =>
    intro _ _ hx _
    exact absurd hx (List.not_mem_nil x)
  | @cons l' l a hsub ih =>
    intro hnd hbef hx hy
    obtain ⟨hal, hndl⟩ := List.nodup_cons.mp hnd
    obtain ⟨l1, l2, heq, hmem⟩ := hbef
    cases l1 with
    | nil =>
      exact absurd hmem (List.not_mem_nil x)
    | cons b l1' =>
      simp only [List.cons_append, List.cons.injEq] at heq
      rcases List.mem_cons.mp hmem with hxb | hxl1
      · -- x = b = a, but x ∈ l' ⊆ l while a ∉ l
        exfalso
        apply hal
        have hxl : x ∈ l := hsub.subset hx
        rw [heq.1, ← hxb]
        exact hxl
      · exact ih hndl ⟨l1', l2, heq.2, hxl1⟩ hx hy
  | @cons₂ l' l a hsub ih =>
    intro hnd hbef hx hy
    obtain ⟨hal, hndl⟩ := List.nodup_cons.mp hnd
    obtain ⟨l1, l2, heq, hmem⟩ := hbef
    cases l1 with
    | nil =>
      exact absurd hmem (List.not_mem_nil x)
    | cons b l1' =>
      simp only [List.cons_append, List.cons.injEq] at heq
      obtain ⟨hab, hl⟩ := heq
      have hy' : y ∈ l' := by
        rcases List.mem_cons.mp hy with hy1 | hy1
        · exfalso
          apply hal
          rw [← hy1, hl]
          exact List.mem_append.mpr (Or.inr (List.mem_cons_self y l2))
        · exact hy1
      rcases List.mem_cons.mp hmem with hxb | hxl1
      · -- x = b = a heads a split of a :: l' at y
        obtain ⟨m1, m2, hm⟩ := List.append_of_mem hy'
        refine ⟨a :: m1, m2, by simp [hm], ?_⟩
        rw [hxb, ← hab]
        exact List.mem_cons_self a m1
      · -- x lies strictly inside: recurse and re-attach the head
        have hx' : x ∈ l' := by
          rcases List.mem_cons.mp hx with hx1 | hx1
          · exfalso
            apply hal
            rw [← hx1, hl]
            exact List.mem_append.mpr (Or.inl hxl1)
          · exact hx1
        obtain ⟨m1, m2, hm, hxm⟩ := ih hndl ⟨l1', l2, hl, hxl1⟩ hx' hy'
        exact ⟨a :: m1, m2, by simp [hm], List.mem_cons_of_mem a hxm⟩

/-- The dependency edge of the seeder graph: `a` declares `d`. -/
def DepEdge (cfg : SeedEnv) (a d : String) : Prop := d ∈ depsOf cfg a

/-- The seeder dependency graph has no (directed) cycle. -/
def SeedAcyclic (cfg : SeedEnv) : Prop :=
  ∀ n, ¬ Relation.TransGen (DepEdge cfg) n n

theorem transGen_rank_lt {α : Type} {r : α → α → Prop} (rank : α → Nat)
    (h : ∀ a b, r a b → rank b < rank a) :
    ∀ a b, Relation.TransGen r a b → rank b < rank a := by
  intro a b htg
  induction htg with
  | single h1 => exact h _ _ h1
  | tail _ h1 ih => exact lt_trans (h _ _ h1) ih

/-- A ranking function that strictly drops along every dependency edge
certifies acyclicity. -/
theorem seedAcyclic_of_rank (cfg : SeedEnv) (rank : String → Nat)
    (h : ∀ a d, DepEdge cfg a d → rank d < rank a) : SeedAcyclic cfg := by
  intro n hn
  exact lt_irrefl _ (transGen_rank_lt rank h n n hn)

/-- `x` is marked visited but not yet emitted: it is on the DFS stack. -/
def Gray (st : SortSt) (x : String) : Prop :=
  x ∈ st.visited ∧ x ∉ st.sorted

/-- DFS state invariant: the output is a duplicate-free subset of the
visited set, and every emitted name's dependencies either precede it in
the output or lie on a dependency cycle. -/
def SortInv (cfg : SeedEnv) (st : SortSt) : Prop :=
  (∀ x ∈ st.sorted, x ∈ st.visited) ∧ st.sorted.Nodup
    ∧ ∀ a ∈ st.sorted, ∀ d ∈ depsOf cfg a,
        Bef st.sorted d a ∨ Relation.TransGen (DepEdge cfg) d d

/-- What one successful `visit cfg fuel st name` call guarantees. -/
def VisitConc (cfg : SeedEnv) (st : SortSt) (name : String) (st' : SortSt) : Prop :=
  ∃ Δ, st'.sorted = st.sorted ++ Δ
    ∧ (∀ x, x ∈ st'.visited ↔ x ∈ st.visited ∨ x ∈ Δ)
    ∧ (∀ x ∈ Δ, x ∉ st.visited)
    ∧ name ∈ st'.visited
    ∧ SortInv cfg st'

/-- What one successful dependency loop guarantees. -/
def DepsConc (cfg : SeedEnv) (st : SortSt) (ds : List String) (st' : SortSt) : Prop :=
  ∃ Δ, st'.sorted = st.sorted ++ Δ
    ∧ (∀ x, x ∈ st'.visited ↔ x ∈ st.visited ∨ x ∈ Δ)
    ∧ (∀ x ∈ Δ, x ∉ st.visited)
    ∧ (∀ d ∈ ds, d ∈ st'.visited)
    ∧ SortInv cfg st'

/-- A successful call leaves the DFS stack (the gray set) unchanged. -/
theorem gray_iff_of_parts {st st' : SortSt} {Δ : List String}
    (h1 : st'.sorted = st.sorted ++ Δ)
    (h2 : ∀ x, x ∈ st'.visited ↔ x ∈ st.visited ∨ x ∈ Δ)
    (h3 : ∀ x ∈ Δ, x ∉ st.visited) :
    ∀ g, Gray st' g ↔ Gray st g := by
  intro g
  constructor
  · rintro ⟨hv, hs⟩
    rcases (h2 g).mp hv with hg | hg
    · refine ⟨hg, fun hmem => hs ?_⟩
      rw [h1]
      exact List.mem_append.mpr (Or.inl hmem)
    · exfalso
      apply hs
      rw [h1]
      exact List.mem_append.mpr (Or.inr hg)
  · rintro ⟨hv, hs⟩
    refine ⟨(h2 g).mpr (Or.inl hv), fun hmem => ?_⟩
    rw [h1] at hmem
    rcases List.mem_append.mp hmem with hm | hm
    · exact hs hm
    · exact h3 g hm hv

/-- Soundness of the dependency loop, parameterised by soundness of the
recursive visit it invokes. -/
theorem visitDeps_sound (cfg : SeedEnv) (parent : String)
    (f : SortSt → String → Option (Except String SortSt))
    (hf : ∀ st d st', f st d = some (.ok st') → SortInv cfg st →
          (∀ g, Gray st g → Relation.TransGen (DepEdge cfg) g d) →
          VisitConc cfg st d st') :
    ∀ ds st st', DatabaseSeeder.visitDeps cfg parent f st ds = some (.ok st') →
      SortInv cfg st →
      (∀ d ∈ ds, ∀ g, Gray st g → Relation.TransGen (DepEdge cfg) g d) →
      DepsConc cfg st ds st' := by
  intro ds
  induction ds with
  | nil =>
    intro st st' hrun hinv _
    simp only [DatabaseSeeder.visitDeps, Option.some.injEq, Except.ok.injEq] at hrun
    subst hrun
    exact ⟨[], by simp, by simp, by simp, by simp, hinv⟩
  | cons d ds ih =>
    intro st st' hrun hinv hg
    simp only [DatabaseSeeder.visitDeps] at hrun
    by_cases hreg : (lookupKey cfg d).isSome
    · rw [if_pos hreg] at hrun
      cases hfd : f st d with
      | none =>
        rw [hfd] at hrun
        simp [DatabaseSeeder.exStep] at hrun
      | some r =>
        cases r with
        | error e =>
          rw [hfd] at hrun
          simp [DatabaseSeeder.exStep] at hrun
        | ok st1 =>
          rw [hfd] at hrun
          simp only [DatabaseSeeder.exStep] at hrun
          obtain ⟨Δ1, hs1, hv1, hfr1, hd1, hinv1⟩ :=
            hf st d st1 hfd hinv (hg d (List.mem_cons_self d ds))
          have hgr := gray_iff_of_parts hs1 hv1 hfr1
          obtain ⟨Δ2, hs2, hv2, hfr2, hd2, hinv2⟩ :=
            ih st1 st' hrun hinv1 (fun d' hd' g hgrg =>
              hg d' (List.mem_cons_of_mem d hd') g ((hgr g).mp hgrg))
          refine ⟨Δ1 ++ Δ2, ?_, ?_, ?_, ?_, hinv2⟩
          · rw [hs2, hs1, List.append_assoc]
          · intro x
            rw [hv2 x, hv1 x, List.mem_append]
            tauto
          · intro x hx
            rcases List.mem_append.mp hx with hx1 | hx2
            · exact hfr1 x hx1
            · intro hxv
              exact hfr2 x hx2 ((hv1 x).mpr (Or.inl hxv))
          · intro d' hd'
            rcases List.mem_cons.mp hd' with hdd | hdd
            · subst hdd
              exact (hv2 d').mpr (Or.inl hd1)
            · exact hd2 d' hdd
    · rw [if_neg hreg] at hrun
      simp at hrun

/-- Soundness of one `visit` call: on success it extends the output with
fresh names, keeps the DFS stack unchanged, and preserves the ordering
invariant. -/
theorem visit_sound (cfg : SeedEnv) :
    ∀ fuel st name st', DatabaseSeeder.visit cfg fuel st name = some (.ok st') →
      SortInv cfg st →
      (∀ g, Gray st g → Relation.TransGen (DepEdge cfg) g name) →
      VisitConc cfg st name st' := by
  intro fuel
  induction fuel with
  | zero =>
    intro st name st' h
    simp [DatabaseSeeder.visit] at h
  | succ fuel ih =>
    intro st name st' hrun hinv hg
    simp only [DatabaseSeeder.visit] at hrun
    by_cases hvis : name ∈ st.visited
    · rw [if_pos hvis] at hrun
      simp only [Option.some.injEq, Except.ok.injEq] at hrun
      subst hrun
      exact ⟨[], by simp, by simp, by simp, hvis, hinv⟩
    · rw [if_neg hvis] at hrun
      cases hvd : DatabaseSeeder.visitDeps cfg name (DatabaseSeeder.visit cfg fuel)
          ⟨name :: st.visited, st.sorted⟩ (depsOf cfg name) with
      | none =>
        rw [hvd] at hrun
        simp [DatabaseSeeder.exStep] at hrun
      | some r =>
        cases r with
        | error e =>
          rw [hvd] at hrun
          simp [DatabaseSeeder.exStep] at hrun
        | ok st2 =>
          rw [hvd] at hrun
          simp only [DatabaseSeeder.exStep, Option.some.injEq, Except.ok.injEq] at hrun
          have hinv1 : SortInv cfg ⟨name :: st.visited, st.sorted⟩ := by
            obtain ⟨h1, h2, h3⟩ := hinv
            exact ⟨fun x hx => List.mem_cons_of_mem name (h1 x hx), h2, h3⟩
          have hpre : ∀ d ∈ depsOf cfg name, ∀ g,
              Gray ⟨name :: st.visited, st.sorted⟩ g →
              Relation.TransGen (DepEdge cfg) g d := by
            intro d hd g hgr
            obtain ⟨hgv, hgs⟩ := hgr
            rcases List.mem_cons.mp hgv with hgn | hgv'
            · subst hgn
              exact Relation.TransGen.single hd
            · exact Relation.TransGen.tail (hg g ⟨hgv', hgs⟩) hd
          obtain ⟨Δ, hs2, hv2, hfr2, hdom, hinv2⟩ :=
            visitDeps_sound cfg name (DatabaseSeeder.visit cfg fuel)
              (fun st d st' h hi hgr => ih st d st' h hi hgr)
              (depsOf cfg name) ⟨name :: st.visited, st.sorted⟩ st2 hvd hinv1 hpre
          have hname2 : name ∈ st2.visited :=
            (hv2 name).mpr (Or.inl (List.mem_cons_self name st.visited))
          have hnames : name ∉ st2.sorted := by
            rw [hs2]
            intro hmem
            rcases List.mem_append.mp hmem with hm | hm
            · exact hvis (hinv.1 name hm)
            · exact hfr2 name hm (List.mem_cons_self name st.visited)
          subst hrun
          refine ⟨Δ ++ [name], ?_, ?_, ?_, hname2, ?_, ?_, ?_⟩
          · show st2.sorted ++ [name] = st.sorted ++ (Δ ++ [name])
            rw [hs2]
            simp [List.append_assoc]
          · intro x
            show x ∈ st2.visited ↔ _
            rw [hv2 x]
            simp only [List.mem_cons, List.mem_append, List.mem_singleton]
            tauto
          · intro x hx
            rcases List.mem_append.mp hx with hx1 | hx2
            · intro hxv
              exact hfr2 x hx1 (List.mem_cons_of_mem name hxv)
            · rw [List.mem_singleton.mp hx2]
              exact hvis
          · -- sorted ⊆ visited for the pushed state
            intro x hx
            rcases List.mem_append.mp hx with hx1 | hx2
            · exact hinv2.1 x hx1
            · rw [List.mem_singleton.mp hx2]
              exact hname2
          · -- Nodup for the pushed state
            rw [List.nodup_append]
            exact ⟨hinv2.2.1, List.nodup_singleton name,
              fun x hx1 hx2 => hnames (by rwa [List.mem_singleton.mp hx2] at hx1)⟩
          · -- ordering for the pushed state
            intro a ha d hd
            rcases List.mem_append.mp ha with ha1 | ha2
            · rcases hinv2.2.2 a ha1 d hd with hb | htg
              · exact Or.inl (Bef.append_right hb)
              · exact Or.inr htg
            · rw [List.mem_singleton.mp ha2] at hd ⊢
              have hdv : d ∈ st2.visited := hdom d hd
              by_cases hds : d ∈ st2.sorted
              · exact Or.inl (Bef.concat hds)
              · have hgr2 := gray_iff_of_parts hs2 hv2 hfr2 d
                have hgd : Gray ⟨name :: st.visited, st.sorted⟩ d :=
                  (hgr2).mp ⟨hdv, hds⟩
                obtain ⟨hdv1, hds1⟩ := hgd
                rcases List.mem_cons.mp hdv1 with hdn | hdv'
                · subst hdn
                  exact Or.inr (Relation.TransGen.single hd)
                · exact Or.inr (Relation.TransGen.tail (hg d ⟨hdv', hds1⟩) hd)

/-- Soundness of the top-level loop of `sortByDependencies`: starting from
an empty-stack state, a successful sort yields a state satisfying the
ordering invariant. -/
theorem visitAll_sound (cfg : SeedEnv) (fuel : Nat) :
    ∀ names st st', DatabaseSeeder.visitAll cfg fuel st names = some (.ok st') →
      SortInv cfg st → (∀ g, ¬ Gray st g) →
      SortInv cfg st' := by
  intro names
  induction names with
  | nil =>
    intro st st' h hinv _
    simp only [DatabaseSeeder.visitAll, Option.some.injEq, Except.ok.injEq] at h
    subst h
    exact hinv
  | cons n ns ih =>
    intro st st' h hinv hng
    simp only [DatabaseSeeder.visitAll] at h
    cases hv : DatabaseSeeder.visit cfg fuel st n with
    | none =>
      rw [hv] at h
      simp [DatabaseSeeder.exStep] at h
    | some r =>
      cases r with
      | error e =>
        rw [hv] at h
        simp [DatabaseSeeder.exStep] at h
      | ok st1 =>
        rw [hv] at h
        simp only [DatabaseSeeder.exStep] at h
        obtain ⟨Δ, hs, hvv, hfr, _, hinv1⟩ :=
          visit_sound cfg fuel st n st1 hv hinv (fun g hg => absurd hg (hng g))
        have hgr := gray_iff_of_parts hs hvv hfr
        exact ih st1 st' h hinv1 (fun g hg => hng g ((hgr g).mp hg))

/-- The execution loop only appends a sub-list of the sorted names to the
log, in order. -/
theorem runList_sublist (cfg : SeedEnv) (curEnv : String) :
    ∀ ns log, ∃ ex, (DatabaseSeeder.runList cfg curEnv log ns).2 = log ++ ex
      ∧ List.Sublist ex ns := by
  intro ns
  induction ns with
  | nil =>
    intro log
    exact ⟨[], by simp [DatabaseSeeder.runList], List.nil_sublist []⟩
  | cons n ns ih =>
    intro log
    simp only [DatabaseSeeder.runList]
    cases hlk : lookupKey cfg n with
    | none =>
      simp only [DatabaseSeeder.runSeeder, hlk]
      exact ⟨[], by simp, List.nil_sublist (n :: ns)⟩
    | some c =>
      by_cases hskip : DatabaseSeeder.envSkips c curEnv = true
      · obtain ⟨ex, hex, hsub⟩ := ih log
        refine ⟨ex, ?_, List.Sublist.cons n hsub⟩
        simp [DatabaseSeeder.runSeeder, hlk, hskip, hex]
      · by_cases hfail : c.fails = true
        · refine ⟨[n], ?_, (List.nil_sublist ns).cons₂ n⟩
          simp [DatabaseSeeder.runSeeder, hlk, hskip, hfail]
        · obtain ⟨ex, hex, hsub⟩ := ih (log ++ [n])
          refine ⟨n :: ex, ?_, hsub.cons₂ n⟩
          simp [DatabaseSeeder.runSeeder, hlk, hskip, hfail, hex]

/-- Claim C6 (corrected): provided the seeder dependency graph is acyclic,
every `seed(names)` call executes each seeder's seed function at most once
(the execution log is duplicate-free), and whenever a seeder and one of
its declared dependencies both execute, the dependency's seed function
completes strictly before the dependent's starts — even when only the
dependent was requested.  (With a dependency cycle the visited-set DFS can
emit a dependency after its dependent; see the counterexample.) -/
theorem seed_runs_once_in_dependency_order (cfg : SeedEnv) (curEnv : String)
    (fuel : Nat) (names : List String) (res : Except String Unit) (log : List String)
    (hacyc : SeedAcyclic cfg)
    (hrun : DatabaseSeeder.seed cfg curEnv fuel names = some (res, log)) :
    log.Nodup ∧ ∀ a d, d ∈ depsOf cfg a → a ∈ log → d ∈ log → Bef log d a := by
  unfold DatabaseSeeder.seed at hrun
  cases hva : DatabaseSeeder.visitAll cfg fuel ⟨[], []⟩ names with
  | none =>
    rw [hva] at hrun
    simp at hrun
  | some r =>
    cases r with
    | error e =>
      rw [hva] at hrun
      simp only [Option.some.injEq, Prod.mk.injEq] at hrun
      obtain ⟨_, hl⟩ := hrun
      subst hl
      refine ⟨List.nodup_nil, ?_⟩
      intro a d _ ha
      exact absurd ha (List.not_mem_nil a)
    | ok st =>
      rw [hva] at hrun
      simp only [Option.some.injEq] at hrun
      have hinv := visitAll_sound cfg fuel names ⟨[], []⟩ st hva
        ⟨fun x hx => absurd hx (List.not_mem_nil x), List.nodup_nil,
          fun a ha => absurd ha (List.not_mem_nil a)⟩
        (fun g hg => absurd hg.1 (List.not_mem_nil g))
      obtain ⟨hsv, hnd, hord⟩ := hinv
      obtain ⟨ex, hex, hsub⟩ := runList_sublist cfg curEnv st.sorted []
      have hlog : log = ex := by
        have hsnd := congrArg Prod.snd hrun
        simp only at hsnd
        rw [← hsnd, hex]
        simp
      subst hlog
      refine ⟨hsub.nodup hnd, ?_⟩
      intro a d hdep ha hd
      have hain : a ∈ st.sorted := hsub.subset ha
      rcases hord a hain d hdep with hb | htg
      · exact Bef.sublist hsub hnd hb hd ha
      · exact absurd htg (hacyc d)

/-- A small acyclic seeder registry: `users` depends on `roles`. -/
def seedEnvW6 : SeedEnv :=
  [("users", { deps := some ["roles"], envs := none }),
   ("roles", { deps := none, envs := none })]

/-- Ranking function certifying that `seedEnvW6` is acyclic. -/
def rankW6 : String → Nat := fun n => if n = "users" then 1 else 0

theorem seedEnvW6_acyclic : SeedAcyclic seedEnvW6 := by
  apply seedAcyclic_of_rank seedEnvW6 rankW6
  intro a d h
  unfold DepEdge depsOf at h
  by_cases h1 : a = "users"
  · subst h1
    simp [lookupKey, seedEnvW6] at h
    subst h
    decide
  · by_cases h2 : a = "roles"
    · subst h2
      simp [lookupKey, seedEnvW6] at h
    · simp [lookupKey, seedEnvW6, h1, h2] at h

/-- Witness for the corrected claim C6: `seed(["users"])` in `seedEnvW6`
executes `roles` strictly before `users` although only `users` was
requested, with no duplicates. -/
theorem seed_runs_once_in_dependency_order_witness :
    (["roles", "users"] : List String).Nodup
    ∧ ∀ a d, d ∈ depsOf seedEnvW6 a → a ∈ ["roles", "users"] →
        d ∈ ["roles", "users"] → Bef ["roles", "users"] d a :=
  seed_runs_once_in_dependency_order seedEnvW6 "test" 10 ["users"] (.ok ())
    ["roles", "users"] seedEnvW6_acyclic rfl

/-- A cyclic seeder registry: `a` and `b` depend on each other. -/
def seedEnvCyc : SeedEnv :=
  [("a", { deps := some ["b"], envs := none }),
   ("b", { deps := some ["a"], envs := none })]

/-- Counterexample to claim C6 as stated: with the dependency cycle
`a ↔ b`, `seed(["a"])` succeeds with execution order `[b, a]`, yet `a` is
a declared dependency of `b`, so `b`'s dependency `a` completes only AFTER
`b`'s seed function ran — the visited-set DFS does not make every
dependency's seed complete before its dependent's starts. -/
theorem seed_cycle_breaks_dependency_order_cex :
    DatabaseSeeder.seed seedEnvCyc "test" 10 ["a"] = some (.ok (), ["b", "a"])
    ∧ "a" ∈ depsOf seedEnvCyc "b"
    ∧ ¬ Bef ["b", "a"] "a" "b" := by
  refine ⟨rfl, by simp [depsOf, lookupKey, seedEnvCyc], ?_⟩
  rintro ⟨l1, l2, heq, hmem⟩
  cases l1 with
  | nil => exact absurd hmem (List.not_mem_nil "a")
  | cons c l1' =>
    simp only [List.cons_append, List.cons.injEq] at heq
    obtain ⟨hc, heq2⟩ := heq
    cases l1' with
    | nil => simp at heq2
    | cons c2 l1'' =>
      simp only [List.cons_append, List.cons.injEq] at heq2
      obtain ⟨_, heq3⟩ := heq2
      exact absurd heq3 (by simp)

/-! ## FixtureManager (fixture manager class in src/core/data)

`load` is an async method that runs synchronously up to its first `await`.
The embedding is a deterministic cooperative event-loop semantics:

  * a fresh promise is allocated for every async-function invocation;
  * awaiting a settled promise enqueues the continuation at the back of a
    FIFO microtask queue; awaiting a pending promise parks the
    continuation on that promise; settling a promise enqueues its parked
    continuations in parking order;
  * `Promise.all(ps)` resolves once all of `ps` are resolved and rejects
    with the first rejection; its awaiter is parked on the whole list;
  * a user-supplied setup callback is modelled by configuration: it
    appends a start event when invoked, runs a configured number of
    internal awaits, then appends a completion event and resolves (or a
    failure event and rejects);
  * the body of `load` is compiled to continuations at its `await` points:
    after `await Promise.all(deps.map(load))`, after `await
    fixture.setup()` inside the setup IIFE, and after `await
    setupPromise` in `load` itself.

Fuel bounds the recursion of dependency prefixes and the queue drain;
`none` / `false` results mean the run did not finish within the fuel. -/

/-- Observable events, in chronological order of a run. -/
inductive Ev where
  | loading (name : String)
  | start (name : String)
  | done (name : String)
  | fail (name : String)
  | loadedOk (name : String)
  | teardown (name : String)
deriving DecidableEq, Repr, BEq

/-- Behaviour of a user-supplied setup callback: number of internal
awaits before it finishes, and whether it finishes by throwing. -/
structure SetupSpec where
  ticks : Nat
  failure : Bool
deriving DecidableEq, Repr

/-- `FixtureConfig` (data.types.ts): the declared dependency list is
optional (`dependencies?`), as are the setup and teardown callbacks.  A
teardown callback is modelled by whether it throws. -/
structure FixtureConfig where
  deps : Option (List String)
  setup : Option SetupSpec
  teardown : Option Bool := none
deriving DecidableEq, Repr

/-- `this.fixtures`: the fixture registry. -/
abbrev FixEnv := List (String × FixtureConfig)

/-- Nat-keyed `Map.get`. -/
def lookupNat {α : Type} : List (Nat × α) → Nat → Option α
  | [], _ => none
  | (k, v) :: rest, key => if key = k then some v else lookupNat rest key

/-- Nat-keyed `Map.set`. -/
def setNat {α : Type} (l : List (Nat × α)) (key : Nat) (v : α) :
    List (Nat × α) :=
  if (lookupNat l key).isSome then
    l.map (fun p => if p.1 = key then (key, v) else p)
  else
    l ++ [(key, v)]

/-- `Map.delete` for string keys. -/
def eraseKey {α : Type} (l : List (String × α)) (key : String) :
    List (String × α) :=
  l.filter (fun p => !(p.1 == key))

/-- `Set.add` for the loaded-fixtures set. -/
def addLoaded (l : List String) (name : String) : List String :=
  if name ∈ l then l else l ++ [name]

/-- A promise's state. -/
inductive PromVal where
  | pending
  | ok
  | err (msg : String)
deriving DecidableEq, Repr

/-- Defunctionalised continuations: the resume points of `load`, of its
setup IIFE, and of a user setup callback mid-execution. -/
inductive Cont where
  | loadAfterDeps (name : String) (myProm : Nat)
  | loadAfterSetup (name : String) (myProm : Nat)
  | iifeAfterSetup (name : String) (iifeProm : Nat)
  | setupStep (name : String) (remaining : Nat) (failure : Bool) (setupProm : Nat)
deriving DecidableEq, Repr

/-- A promise: its value and the continuations parked on it. -/
structure Prom where
  val : PromVal
  waiters : List Cont
deriving DecidableEq, Repr

/-- The full event-loop state: the fixture registry, the manager's
`loadedFixtures` and `setupPromises` fields, the promise store, the
parked `Promise.all` waiters, the FIFO microtask queue, the observable
event log and the next fresh promise id. -/
structure LoadSt where
  env : FixEnv
  loaded : List String
  smap : List (String × Nat)
  proms : List (Nat × Prom)
  allWaiters : List (List Nat × Cont)
  queue : List (Cont × Except String Unit)
  log : List Ev
  next : Nat
deriving Repr

/-- Allocate a fresh pending promise (its id is the old `next`). -/
def addProm (st : LoadSt) : LoadSt :=
  { st with proms := st.proms ++ [(st.next, ⟨.pending, []⟩)], next := st.next + 1 }

/-- Value of a promise (allocated ids are always present). -/
def promVal (st : LoadSt) (p : Nat) : PromVal :=
  match lookupNat st.proms p with
  | some pr => pr.val
  | none => .pending

/-- Enqueue a continuation with its resumption value. -/
def enqueue (st : LoadSt) (c : Cont) (v : Except String Unit) : LoadSt :=
  { st with queue := st.queue ++ [(c, v)] }

/-- First rejection among a list of promises, in list order. -/
def firstErr (st : LoadSt) : List Nat → Option String
  | [] => none
  | p :: rest =>
    match promVal st p with
    | .err e => some e
    | _ => firstErr st rest

/-- Are all promises in the list resolved? -/
def allOk (st : LoadSt) : List Nat → Bool
  | [] => true
  | p :: rest =>
    match promVal st p with
    | .ok => allOk st rest
    | _ => false

/-- `Promise.all` readiness: reject with the first rejection, resolve
when all are resolved, otherwise keep waiting. -/
def allReady (st : LoadSt) (ps : List Nat) : Option (Except String Unit) :=
  match firstErr st ps with
  | some e => some (.error e)
  | none => if allOk st ps then some (.ok ()) else none

/-- Fire the `Promise.all` waiters that became ready, keep the rest. -/
def fireAll (st : LoadSt) : List (List Nat × Cont) → LoadSt × List (List Nat × Cont)
  | [] => (st, [])
  | (ps, c) :: rest =>
    match allReady st ps with
    | some v => fireAll (enqueue st c v) rest
    | none =>
      match fireAll st rest with
      | (st1, rest') => (st1, (ps, c) :: rest')

/-- Settle promise `p` with `v`: store the value, enqueue its parked
continuations in order, then fire any `Promise.all` waiter that became
ready. -/
def settle (st : LoadSt) (p : Nat) (v : Except String Unit) : LoadSt :=
  match lookupNat st.proms p with
  | none => st
  | some pr =>
    let newVal : PromVal := match v with
      | .ok _ => .ok
      | .error e => .err e
    let st1 := { st with proms := setNat st.proms p ⟨newVal, []⟩ }
    let st2 := pr.waiters.foldl (fun s c => enqueue s c v) st1
    match fireAll { st2 with allWaiters := [] } st2.allWaiters with
    | (st3, remaining) => { st3 with allWaiters := remaining }

/-- `await p`: enqueue immediately if `p` is settled, else park on `p`. -/
def awaitOn (st : LoadSt) (p : Nat) (c : Cont) : LoadSt :=
  match lookupNat st.proms p with
  | none => st
  | some pr =>
    match pr.val with
    | .pending => { st with proms := setNat st.proms p ⟨pr.val, pr.waiters ++ [c]⟩ }
    | .ok => enqueue st c (.ok ())
    | .err e => enqueue st c (.error e)

/-- `await Promise.all(ps)`: enqueue immediately if already decided, else
park on the list. -/
def awaitAll (st : LoadSt) (ps : List Nat) (c : Cont) : LoadSt :=
  match allReady st ps with
  | some v => enqueue st c v
  | none => { st with allWaiters := st.allWaiters ++ [(ps, c)] }

/-- Invoke a setup callback: append the start event; with no internal
awaits it finishes synchronously (event + settled promise), otherwise its
continuation is queued.  The callback's promise id is `st.next`. -/
def invokeSetup (st : LoadSt) (name : String) (spec : SetupSpec) : LoadSt :=
  let sp := st.next
  let st1 := addProm st
  let st2 := { st1 with log := st1.log ++ [Ev.start name] }
  match spec.ticks with
  | 0 =>
    if spec.failure then
      settle { st2 with log := st2.log ++ [Ev.fail name] } sp
        (.error ("Setup failed: " ++ name))
    else
      settle { st2 with log := st2.log ++ [Ev.done name] } sp (.ok ())
  | k + 1 => enqueue st2 (.setupStep name k spec.failure sp) (.ok ())

/-- The setup phase of `load` (factory-manager fixture code, the IIFE and
the two lines after it): invoke the IIFE — which runs `await
fixture.setup()` or, with no setup callback, completes synchronously by
adding to `loadedFixtures` and deleting from `setupPromises` — then
`this.setupPromises.set(fixtureName, setupPromise)` and `await
setupPromise`.  Note the `set` runs after the IIFE's synchronous part, so
with no setup callback the deleted entry is re-added and stays behind. -/
def startSetupPhase (st : LoadSt) (name : String) (myProm : Nat) : LoadSt :=
  match lookupKey st.env name with
  | none => st
  | some fix =>
    let iifeProm := st.next
    let st1 := addProm st
    match fix.setup with
    | some spec =>
      let sp := st1.next
      let st2 := invokeSetup st1 name spec
      let st3 := awaitOn st2 sp (.iifeAfterSetup name iifeProm)
      let st4 := { st3 with smap := setKey st3.smap name iifeProm }
      awaitOn st4 iifeProm (.loadAfterSetup name myProm)
    | none =>
      let st2 := { st1 with loaded := addLoaded st1.loaded name,
                            smap := eraseKey st1.smap name }
      let st3 := settle st2 iifeProm (.ok ())
      let st4 := { st3 with smap := setKey st3.smap name iifeProm }
      awaitOn st4 iifeProm (.loadAfterSetup name myProm)

/-- Sequential synchronous prefix calls for `fixture.dependencies.map(dep
=> this.load(dep))` — `map` invokes each `load` in declared order; each
runs its synchronous prefix and returns its promise. -/
def loadDepsRun (f : LoadSt → String → LoadSt × Option Nat) :
    LoadSt → List String → LoadSt × Option (List Nat)
  | st, [] => (st, some [])
  | st, d :: ds =>
    match f st d with
    | (st1, none) => (st1, none)
    | (st1, some p) =>
      match loadDepsRun f st1 ds with
      | (st2, none) => (st2, none)
      | (st2, some ps) => (st2, some (p :: ps))

/-- The synchronous prefix of one `load(fixtureName)` invocation
(fixture manager `load`, lines 205-248): throw `Fixture not found` for an
unregistered name (rejecting the returned promise); return the in-flight
promise if `setupPromises` has one; return (resolved) if already loaded;
otherwise log, start the declared dependency loads and `await
Promise.all` of them — or, with no `dependencies` field, proceed directly
to the setup phase.  Returns the promise the caller awaits; `none` means
fuel ran out (the source recursion is unbounded). -/
def loadCall : Nat → LoadSt → String → LoadSt × Option Nat
  | 0, st, _ => (st, none)
  | fuel + 1, st, name =>
    match lookupKey st.env name with
    | none =>
      let p := st.next
      let st1 := addProm st
      (settle st1 p (.error ("Fixture not found: " ++ name)), some p)
    | some fix =>
      match lookupKey st.smap name with
      | some p => (st, some p)
      | none =>
        if name ∈ st.loaded then
          let p := st.next
          let st1 := addProm st
          (settle st1 p (.ok ()), some p)
        else
          let st1 := { st with log := st.log ++ [Ev.loading name] }
          let myProm := st1.next
          let st2 := addProm st1
          match fix.deps with
          | some ds =>
            match loadDepsRun (loadCall fuel) st2 ds with
            | (st3, none) => (st3, none)
            | (st3, some dps) =>
              (awaitAll st3 dps (.loadAfterDeps name myProm), some myProm)
          | none =>
            (startSetupPhase st2 name myProm, some myProm)

/-- Resume a dequeued continuation with its value. -/
def runCont (st : LoadSt) (c : Cont) (v : Except String Unit) : LoadSt :=
  match c with
  | .loadAfterDeps name myProm =>
    match v with
    | .error e => settle st myProm (.error e)
    | .ok _ => startSetupPhase st name myProm
  | .iifeAfterSetup name iifeProm =>
    match v with
    | .ok _ =>
      let st1 := { st with loaded := addLoaded st.loaded name,
                           smap := eraseKey st.smap name }
      settle st1 iifeProm (.ok ())
    | .error e => settle st iifeProm (.error e)
  | .loadAfterSetup name myProm =>
    match v with
    | .ok _ => settle { st with log := st.log ++ [Ev.loadedOk name] } myProm (.ok ())
    | .error e => settle st myProm (.error e)
  | .setupStep name remaining failure sp =>
    match remaining with
    | 0 =>
      if failure then
        settle { st with log := st.log ++ [Ev.fail name] } sp
          (.error ("Setup failed: " ++ name))
      else
        settle { st with log := st.log ++ [Ev.done name] } sp (.ok ())
    | k + 1 => enqueue st (.setupStep name k failure sp) (.ok ())

/-- Run the FIFO microtask queue to exhaustion (within fuel; the Bool
reports whether the queue fully drained). -/
def drain : Nat → LoadSt → LoadSt × Bool
  | 0, st => (st, st.queue.isEmpty)
  | fuel + 1, st =>
    match st.queue with
    | [] => (st, true)
    | (c, v) :: rest => drain fuel (runCont { st with queue := rest } c v)

/-- Fresh manager state over a registry. -/
def initSt (env : FixEnv) : LoadSt :=
  { env := env, loaded := [], smap := [], proms := [], allWaiters := [],
    queue := [], log := [], next := 0 }

/-- One top-level `load(name)` on a fresh manager, run to quiescence:
final state, the promise returned by `load`, and whether the run
finished within fuel. -/
def loadRun (env : FixEnv) (name : String) (fuel : Nat) :
    LoadSt × Option Nat × Bool :=
  match loadCall fuel (initSt env) name with
  | (st1, none) => (st1, none, false)
  | (st1, some p) =>
    match drain fuel st1 with
    | (st2, complete) => (st2, some p, complete)

/-- Two concurrent `load(name)` calls: both synchronous prefixes run in
the same tick (as when a caller invokes `load` twice and then awaits both
promises), then the event loop runs to quiescence. -/
def loadTwoRun (env : FixEnv) (name : String) (fuel : Nat) :
    LoadSt × Option (Nat × Nat) × Bool :=
  match loadCall fuel (initSt env) name with
  | (st1, none) => (st1, none, false)
  | (st1, some p1) =>
    match loadCall fuel st1 name with
    | (st2, none) => (st2, none, false)
    | (st2, some p2) =>
      match drain fuel st2 with
      | (st3, complete) => (st3, some (p1, p2), complete)

/-- `FixtureManager.reset` (fixture manager, lines 313-316): clears
`loadedFixtures` and `setupPromises`. -/
def resetSt (st : LoadSt) : LoadSt :=
  { st with loaded := [], smap := [] }

/-- Number of setup invocations recorded in a log. -/
def startCount (l : List Ev) : Nat :=
  l.countP (fun e => match e with | Ev.start _ => true | _ => false)

/-! ### Sequential semantics of `unload`

`unload` (fixture manager, lines 253-284) never runs concurrently with
itself in a single call chain: it awaits each recursive unload and the
teardown callback in turn, so a big-step fuelled semantics is faithful.
The result is `some (state, none)` for normal return, `some (state, some
e)` for a thrown error, `none` when fuel runs out (the source recursion
is unbounded). -/

/-- Teardown-phase state: the `loadedFixtures` set and the event log. -/
structure TearSt where
  loaded : List String
  log : List Ev
deriving DecidableEq, Repr

namespace FixtureManager

/-- The dependent loop of `unload` (lines 267-271): iterate over ALL
registry entries in insertion order and recursively unload every fixture
whose dependency list contains the target (`f` is the recursive unload). -/
def unloadDependents (f : TearSt → String → Option (TearSt × Option String))
    (target : String) :
    TearSt → List (String × FixtureConfig) → Option (TearSt × Option String)
  | st, [] => some (st, none)
  | st, (n, fix) :: rest =>
    if target ∈ fix.deps.getD [] then
      match f st n with
      | none => none
      | some (st1, some e) => some (st1, some e)
      | some (st1, none) => unloadDependents f target st1 rest
    else
      unloadDependents f target st rest

/-- `FixtureManager.unload` (lines 253-284): throw for an unregistered
name; return immediately if not loaded; otherwise unload all loaded
dependents first, run the teardown callback if present (a throwing
teardown propagates and the name is NOT removed), then delete the name
from the loaded set. -/
def unload (env : FixEnv) : Nat → TearSt → String → Option (TearSt × Option String)
  | 0, _, _ => none
  | fuel + 1, st, name =>
    match lookupKey env name with
    | none => some (st, some ("Fixture not found: " ++ name))
    | some fix =>
      if name ∈ st.loaded then
        match unloadDependents (unload env fuel) name st env with
        | none => none
        | some (st1, some e) => some (st1, some e)
        | some (st1, none) =>
          match fix.teardown with
          | some true =>
            some ({ st1 with log := st1.log ++ [Ev.teardown name] },
              some ("Teardown failed: " ++ name))
          | some false =>
            let st2 := { st1 with log := st1.log ++ [Ev.teardown name] }
            some ({ st2 with loaded := st2.loaded.filter (fun x => !(x == name)) },
              none)
          | none =>
            some ({ st1 with loaded := st1.loaded.filter (fun x => !(x == name)) },
              none)
      else
        some (st, none)

end FixtureManager

theorem lookupKey_mem {α : Type} :
    ∀ (l : List (String × α)) (k : String) (v : α),
      lookupKey l k = some v → (k, v) ∈ l := by
  intro l
  induction l with
  | nil => intro k v h; simp [lookupKey] at h
  | cons hd tl ih =>
    intro k v h
    obtain ⟨k0, v0⟩ := hd
    by_cases hk : k = k0
    · subst hk
      simp [lookupKey] at h
      subst h
      exact List.mem_cons_self (k, v0) tl
    · simp [lookupKey, hk] at h
      exact List.mem_cons_of_mem (k0, v0) (ih k v h)

/-- The dependent loop of `unload` guarantees, given that the recursive
unload only shrinks the loaded set and leaves its argument unloaded: the
loop shrinks the loaded set and leaves every processed dependent of the
target unloaded. -/
theorem unloadDependents_sound
    (f : TearSt → String → Option (TearSt × Option String))
    (hf : ∀ st n st', f st n = some (st', none) →
      (∀ x ∈ st'.loaded, x ∈ st.loaded) ∧ n ∉ st'.loaded)
    (target : String) :
    ∀ entries st st',
      FixtureManager.unloadDependents f target st entries = some (st', none) →
      (∀ x ∈ st'.loaded, x ∈ st.loaded)
      ∧ ∀ p ∈ entries, target ∈ p.2.deps.getD [] → p.1 ∉ st'.loaded := by
  intro entries
  induction entries with
  | nil =>
    intro st st' h
    simp only [FixtureManager.unloadDependents, Option.some.injEq,
      Prod.mk.injEq] at h
    obtain ⟨hst, _⟩ := h
    subst hst
    exact ⟨fun x hx => hx, fun p hp => absurd hp (List.not_mem_nil p)⟩
  | cons hd rest ih =>
    intro st st' h
    obtain ⟨n, fix⟩ := hd
    simp only [FixtureManager.unloadDependents] at h
    by_cases hdep : target ∈ fix.deps.getD []
    · rw [if_pos hdep] at h
      cases hfn : f st n with
      | none =>
        rw [hfn] at h
        simp at h
      | some r =>
        obtain ⟨st1, e?⟩ := r
        cases e? with
        | some e =>
          rw [hfn] at h
          simp at h
        | none =>
          rw [hfn] at h
          obtain ⟨hshr1, hnot1⟩ := hf st n st1 hfn
          obtain ⟨hshr2, hrest⟩ := ih st1 st' h
          refine ⟨fun x hx => hshr1 x (hshr2 x hx), ?_⟩
          intro p hp hpt
          rcases List.mem_cons.mp hp with hph | hpr
          · subst hph
            exact fun hmem => hnot1 (hshr2 n hmem)
          · exact hrest p hpr hpt
    · rw [if_neg hdep] at h
      obtain ⟨hshr2, hrest⟩ := ih st st' h
      refine ⟨hshr2, ?_⟩
      intro p hp hpt
      rcases List.mem_cons.mp hp with hph | hpr
      · subst hph
        exact absurd hpt hdep
      · exact hrest p hpr hpt

/-- A successful `unload` only removes names from the loaded set, and the
unloaded name itself is not loaded afterwards. -/
theorem unload_shrinks_and_removes (env : FixEnv) :
    ∀ fuel st name st',
      FixtureManager.unload env fuel st name = some (st', none) →
      (∀ x ∈ st'.loaded, x ∈ st.loaded) ∧ name ∉ st'.loaded := by
  intro fuel
  induction fuel with
  | zero =>
    intro st name st' h
    simp [FixtureManager.unload] at h
  | succ fuel ih =>
    intro st name st' h
    simp only [FixtureManager.unload] at h
    cases hlk : lookupKey env name with
    | none =>
      rw [hlk] at h
      simp at h
    | some fix =>
      simp only [hlk] at h
      by_cases hld : name ∈ st.loaded
      · rw [if_pos hld] at h
        cases hdeps : FixtureManager.unloadDependents (FixtureManager.unload env fuel)
            name st env with
        | none =>
          rw [hdeps] at h
          simp at h
        | some r =>
          obtain ⟨st1, e?⟩ := r
          cases e? with
          | some e =>
            rw [hdeps] at h
            simp at h
          | none =>
            rw [hdeps] at h
            have hloop : ∀ x ∈ st1.loaded, x ∈ st.loaded :=
              (unloadDependents_sound (FixtureManager.unload env fuel)
                (fun st n st' hh => ih st n st' hh) name env st st1 hdeps).1
            have hfinish : ∀ st2 : TearSt,
                st2.loaded = st1.loaded.filter (fun x => !(x == name)) →
                (∀ x ∈ st2.loaded, x ∈ st.loaded) ∧ name ∉ st2.loaded := by
              intro st2 hst2
              constructor
              · intro x hx
                rw [hst2] at hx
                exact hloop x (List.mem_filter.mp hx).1
              · intro hmem
                rw [hst2] at hmem
                have := (List.mem_filter.mp hmem).2
                simp at this
            cases htd : fix.teardown with
            | none =>
              rw [htd] at h
              simp only [Option.some.injEq, Prod.mk.injEq] at h
              obtain ⟨hst, _⟩ := h
              subst hst
              exact hfinish _ rfl
            | some b =>
              cases b
              · rw [htd] at h
                simp only [Option.some.injEq, Prod.mk.injEq] at h
                obtain ⟨hst, _⟩ := h
                subst hst
                exact hfinish _ rfl
              · rw [htd] at h
                simp at h
      · rw [if_neg hld] at h
        simp only [Option.some.injEq, Prod.mk.injEq] at h
        obtain ⟨hst, _⟩ := h
        subst hst
        exact ⟨fun x hx => hx, hld⟩

/-- Claim C7: after `unload(name)` returns successfully on a state in
which `name` was loaded, `name` is no longer in the loaded set and no
registered fixture that is still loaded has `name` in its dependency
list — the dependent loop recursively unloads every loaded transitive
dependent before `name`'s own teardown runs and `name` is removed. -/
theorem unload_cascades_dependents (env : FixEnv) (fuel : Nat)
    (st st' : TearSt) (name : String)
    (hld : name ∈ st.loaded)
    (hrun : FixtureManager.unload env fuel st name = some (st', none)) :
    name ∉ st'.loaded
    ∧ ∀ f cfg, lookupKey env f = some cfg → f ∈ st'.loaded →
        name ∉ cfg.deps.getD [] := by
  cases fuel with
  | zero => simp [FixtureManager.unload] at hrun
  | succ fuel =>
    simp only [FixtureManager.unload] at hrun
    cases hlk : lookupKey env name with
    | none =>
      rw [hlk] at hrun
      simp at hrun
    | some fix =>
      simp only [hlk] at hrun
      rw [if_pos hld] at hrun
      cases hdeps : FixtureManager.unloadDependents (FixtureManager.unload env fuel)
          name st env with
      | none =>
        rw [hdeps] at hrun
        simp at hrun
      | some r =>
        obtain ⟨st1, e?⟩ := r
        cases e? with
        | some e =>
          rw [hdeps] at hrun
          simp at hrun
        | none =>
          rw [hdeps] at hrun
          obtain ⟨_, hdeploop⟩ :=
            unloadDependents_sound (FixtureManager.unload env fuel)
              (fun st n st' hh => unload_shrinks_and_removes env fuel st n st' hh)
              name env st st1 hdeps
          have hfinish : ∀ st2 : TearSt,
              st2.loaded = st1.loaded.filter (fun x => !(x == name)) →
              name ∉ st2.loaded
              ∧ ∀ f cfg, lookupKey env f = some cfg → f ∈ st2.loaded →
                  name ∉ cfg.deps.getD [] := by
            intro st2 hst2
            constructor
            · intro hmem
              rw [hst2] at hmem
              have := (List.mem_filter.mp hmem).2
              simp at this
            · intro f cfg hcfg hmem hdep
              rw [hst2] at hmem
              have hf1 : f ∈ st1.loaded := (List.mem_filter.mp hmem).1
              exact hdeploop (f, cfg) (lookupKey_mem env f cfg hcfg) hdep hf1
          cases htd : fix.teardown with
          | none =>
            rw [htd] at hrun
            simp only [Option.some.injEq, Prod.mk.injEq] at hrun
            obtain ⟨hst, _⟩ := hrun
            subst hst
            exact hfinish _ rfl
          | some b =>
            cases b
            · rw [htd] at hrun
              simp only [Option.some.injEq, Prod.mk.injEq] at hrun
              obtain ⟨hst, _⟩ := hrun
              subst hst
              exact hfinish _ rfl
            · rw [htd] at hrun
              simp at hrun

/-- Scenario-3 registry: `db` (no deps) and `seedData` (deps `[db]`),
both with teardown callbacks. -/
def env7 : FixEnv :=
  [("db", { deps := none, setup := some ⟨0, false⟩, teardown := some false }),
   ("seedData", { deps := some ["db"], setup := some ⟨0, false⟩, teardown := some false })]

/-- Witness for claim C7 at Scenario 3: with both fixtures loaded,
`unload("db")` cascades — the run tears down `seedData` first, then `db`
(visible in the final log), and afterwards `db` is not loaded. -/
theorem unload_cascades_dependents_witness :
    "db" ∉ (⟨[], [Ev.teardown "seedData", Ev.teardown "db"]⟩ : TearSt).loaded :=
  (unload_cascades_dependents env7 10 ⟨["db", "seedData"], []⟩
    ⟨[], [Ev.teardown "seedData", Ev.teardown "db"]⟩ "db" (by decide) rfl).1

/-! ### Concrete runs of the `load` event loop -/

/-- A fixture declaring an (empty) `dependencies` list. -/
def envC2 : FixEnv := [("f", { deps := some [], setup := some ⟨0, false⟩ })]

/-- Counterexample to claim C2: two concurrent `load("f")` calls on a
fixture that declares a `dependencies` list execute the setup callback
TWICE (the log contains two `start` events), because `load` suspends at
`await Promise.all(...)` before it registers the in-flight promise in
`setupPromises`, so the second caller's check misses it.  Both calls do
resolve and the fixture ends up loaded. -/
theorem load_concurrent_double_setup_cex :
    startCount (loadTwoRun envC2 "f" 50).1.log = 2
    ∧ (loadTwoRun envC2 "f" 50).1.log.count (Ev.start "f") = 2
    ∧ (loadTwoRun envC2 "f" 50).2 = (some (0, 1), true)
    ∧ promVal (loadTwoRun envC2 "f" 50).1 0 = .ok
    ∧ promVal (loadTwoRun envC2 "f" 50).1 1 = .ok
    ∧ (loadTwoRun envC2 "f" 50).1.loaded = ["f"] := by
  refine ⟨by decide, by decide, by decide, by decide, by decide, by decide⟩

/-- A fixture with NO `dependencies` field whose setup callback performs
`k` internal awaits. -/
def envG (k : Nat) : FixEnv := [("g", { deps := none, setup := some ⟨k, false⟩ })]

/-- State after both concurrent prefixes on `envG` when the setup
callback still has `j` awaits to go: the in-flight promise (id 1) is
registered, the second caller was handed it, and only the setup-callback
continuation is queued. -/
def midG (k j : Nat) : LoadSt :=
  { env := envG k, loaded := [], smap := [("g", 1)],
    proms := [(0, ⟨.pending, []⟩), (1, ⟨.pending, [.loadAfterSetup "g" 0]⟩),
              (2, ⟨.pending, [.iifeAfterSetup "g" 1]⟩)],
    allWaiters := [], queue := [(.setupStep "g" j false 2, .ok ())],
    log := [Ev.loading "g", Ev.start "g"], next := 3 }

/-- Quiescent state after the single setup execution on `envG`. -/
def finG (k : Nat) : LoadSt :=
  { env := envG k, loaded := ["g"], smap := [],
    proms := [(0, ⟨.ok, []⟩), (1, ⟨.ok, []⟩), (2, ⟨.ok, []⟩)],
    allWaiters := [], queue := [],
    log := [Ev.loading "g", Ev.start "g", Ev.done "g", Ev.loadedOk "g"],
    next := 3 }

theorem drain_midG : ∀ (j m k : Nat), drain (m + 4 + j) (midG k j) = (finG k, true) := by
  intro j
  induction j with
  | zero =>
    intro m k
    rfl
  | succ j ih =>
    intro m k
    exact ih m k

/-- Claim C2 (corrected): two concurrent `load(name)` calls collapse onto
one setup execution only when the fixture declares no `dependencies`
field — then, for a setup callback of any duration `k`, the synchronous
prefix registers the in-flight promise before the first suspension, the
second caller is handed that in-flight promise, the setup callback runs
exactly once, and both callers' promises resolve with the fixture
loaded. -/
theorem load_concurrent_single_setup_no_deps : ∀ k : Nat,
    (loadTwoRun (envG k) "g" (k + 10)).1.log
        = [Ev.loading "g", Ev.start "g", Ev.done "g", Ev.loadedOk "g"]
    ∧ startCount (loadTwoRun (envG k) "g" (k + 10)).1.log = 1
    ∧ (loadTwoRun (envG k) "g" (k + 10)).2 = (some (0, 1), true)
    ∧ promVal (loadTwoRun (envG k) "g" (k + 10)).1 0 = .ok
    ∧ promVal (loadTwoRun (envG k) "g" (k + 10)).1 1 = .ok
    ∧ (loadTwoRun (envG k) "g" (k + 10)).1.loaded = ["g"] := by
  intro k
  cases k with
  | zero =>
    exact ⟨by decide, by decide, by decide, by decide, by decide, by decide⟩
  | succ j =>
    have hrun : loadTwoRun (envG (j + 1)) "g" (j + 1 + 10) = (finG (j + 1), some (0, 1), true) := by
      have hfuel : j + 1 + 10 = 7 + 4 + j := by omega
      have hdrain := drain_midG j 7 (j + 1)
      rw [← hfuel] at hdrain
      show (match loadCall (j + 1 + 10) (initSt (envG (j + 1))) "g" with
        | (st1, none) => (st1, none, false)
        | (st1, some p1) =>
          match loadCall (j + 1 + 10) st1 "g" with
          | (st2, none) => (st2, none, false)
          | (st2, some p2) =>
            match drain (j + 1 + 10) st2 with
            | (st3, complete) => (st3, some (p1, p2), complete)) = _
      have hpre : loadCall (j + 1 + 10) (initSt (envG (j + 1))) "g" = (midG (j + 1) j, some 0) := by
        rfl
      have hpre2 : loadCall (j + 1 + 10) (midG (j + 1) j) "g" = (midG (j + 1) j, some 1) := by
        rfl
      rw [hpre]
      dsimp only
      rw [hpre2]
      dsimp only
      rw [hdrain]
    rw [hrun]
    exact ⟨rfl, rfl, rfl, rfl, rfl, rfl⟩

/-- Fixture `a` declares `[d1, d2]`; `d1`'s setup spans two awaits,
`d2`'s finishes at once. -/
def envC4 : FixEnv :=
  [("a", { deps := some ["d1", "d2"], setup := some ⟨0, false⟩ }),
   ("d1", { deps := none, setup := some ⟨2, false⟩ }),
   ("d2", { deps := none, setup := some ⟨0, false⟩ })]

/-- Counterexample to claim C4: in `load("a")` the load of `d2` starts —
and `d2`'s setup even runs to completion — before the load of `d1` has
completed: the log shows `loading d2`, `start d2`, `done d2` strictly
between `start d1` and `done d1`.  Dependencies are mapped over
`Promise.all`, not awaited sequentially, and their setups overlap. -/
theorem load_deps_concurrent_cex :
    (loadRun envC4 "a" 100).1.log
        = [Ev.loading "a", Ev.loading "d1", Ev.start "d1", Ev.loading "d2",
           Ev.start "d2", Ev.done "d2", Ev.done "d1", Ev.loadedOk "d2",
           Ev.loadedOk "d1", Ev.start "a", Ev.done "a", Ev.loadedOk "a"]
    ∧ (loadRun envC4 "a" 100).2 = (some 0, true) := by
  refine ⟨by decide, by decide⟩

/-- Claim C4 (corrected): `load` starts all dependency loads up-front in
declared order via `Promise.all(dependencies.map(dep => load(dep)))` —
so a later dependency's load begins while an earlier one is still in
flight and their setups may interleave — and the fixture's own setup
starts only after every dependency load has resolved.  In the concrete
run: `d2`'s load begins after `d1`'s and before `d1` completes, and
`a`'s setup starts only after both dependency loads completed. -/
theorem load_deps_all_started_then_own_setup :
    ((loadRun envC4 "a" 100).1.log.indexOf (Ev.loading "d1")
        < (loadRun envC4 "a" 100).1.log.indexOf (Ev.loading "d2"))
    ∧ ((loadRun envC4 "a" 100).1.log.indexOf (Ev.loading "d2")
        < (loadRun envC4 "a" 100).1.log.indexOf (Ev.done "d1"))
    ∧ ((loadRun envC4 "a" 100).1.log.indexOf (Ev.loadedOk "d1")
        < (loadRun envC4 "a" 100).1.log.indexOf (Ev.start "a"))
    ∧ ((loadRun envC4 "a" 100).1.log.indexOf (Ev.loadedOk "d2")
        < (loadRun envC4 "a" 100).1.log.indexOf (Ev.start "a")) := by
  refine ⟨by decide, by decide, by decide, by decide⟩

/-- Scenario-2 registry: `db` (no deps) and `seedData` (deps `[db]`). -/
def envC8 : FixEnv :=
  [("db", { deps := none, setup := some ⟨0, false⟩ }),
   ("seedData", { deps := some ["db"], setup := some ⟨0, false⟩ })]

/-- Scenario 2 of the spec, run in the event-loop semantics: a single
`load("seedData")` appends `db`'s setup events strictly before
`seedData`'s, resolves, and leaves both fixtures loaded in order
`[db, seedData]`. -/
theorem load_scenario2_dependency_order :
    (loadRun envC8 "seedData" 100).1.log
        = [Ev.loading "seedData", Ev.loading "db", Ev.start "db", Ev.done "db",
           Ev.loadedOk "db", Ev.start "seedData", Ev.done "seedData",
           Ev.loadedOk "seedData"]
    ∧ (loadRun envC8 "seedData" 100).2 = (some 0, true)
    ∧ (loadRun envC8 "seedData" 100).1.loaded = ["db", "seedData"]
    ∧ promVal (loadRun envC8 "seedData" 100).1 0 = .ok := by
  refine ⟨by decide, by decide, by decide, by decide⟩

/-- A fixture whose setup callback rejects immediately. -/
def envC10 : FixEnv := [("g", { deps := none, setup := some ⟨0, true⟩ })]

/-- Claim C10: when `g`'s setup throws during `load("g")`, the fixture is
not added to the loaded set but the rejected in-flight promise stays in
`setupPromises` (the `delete` only runs after a successful setup); any
subsequent `load(name)` whose `setupPromises` entry exists returns that
same cached promise with the state — hence the log and the setup-run
count — completely unchanged, so the cached rejection is replayed without
re-invoking setup; only after `reset()` clears the map does a new load
run the setup callback again. -/
theorem load_setup_failure_caches_rejection :
    ((loadRun envC10 "g" 50).1.loaded = []
      ∧ (loadRun envC10 "g" 50).1.smap = [("g", 1)]
      ∧ promVal (loadRun envC10 "g" 50).1 1 = .err "Setup failed: g"
      ∧ (loadRun envC10 "g" 50).2 = (some 0, true)
      ∧ promVal (loadRun envC10 "g" 50).1 0 = .err "Setup failed: g"
      ∧ startCount (loadRun envC10 "g" 50).1.log = 1
      ∧ startCount (loadCall 10 (resetSt (loadRun envC10 "g" 50).1) "g").1.log = 2)
    ∧ ∀ (fuel : Nat) (st : LoadSt) (name : String) (cfg : FixtureConfig) (p : Nat),
        lookupKey st.env name = some cfg →
        lookupKey st.smap name = some p →
        loadCall (fuel + 1) st name = (st, some p) := by
  constructor
  · exact ⟨by decide, by decide, by decide, by decide, by decide, by decide, by decide⟩
  · intro fuel st name cfg p hcfg hs
    simp [loadCall, hcfg, hs]

/-- Witness for claim C10's cached-rejection law at the concrete
post-failure state: the second `load("g")` returns the very promise
stored in `setupPromises` and leaves the state untouched. -/
theorem load_setup_failure_caches_rejection_witness :
    loadCall 11 (loadRun envC10 "g" 50).1 "g" = ((loadRun envC10 "g" 50).1, some 1) :=
  load_setup_failure_caches_rejection.2 10 (loadRun envC10 "g" 50).1 "g"
    { deps := none, setup := some ⟨0, true⟩ } 1 (by decide) (by decide)

/-- Scenario-4 registry: the dependency cycle `x ↔ y`. -/
def envC1 : FixEnv :=
  [("x", { deps := some ["y"], setup := some ⟨0, false⟩ }),
   ("y", { deps := some ["x"], setup := some ⟨0, false⟩ })]

/-- Invariant along the cyclic prefix recursion: the registry is the
cyclic one and neither fixture is in flight or loaded (the prefix never
registers anything before recursing into its dependency). -/
def cycPre (st : LoadSt) : Prop :=
  st.env = envC1 ∧ lookupKey st.smap "x" = none ∧ lookupKey st.smap "y" = none
    ∧ "x" ∉ st.loaded ∧ "y" ∉ st.loaded

theorem loadCall_cyc_diverges :
    ∀ fuel st, cycPre st →
      ((loadCall fuel st "x").2 = none
        ∧ startCount (loadCall fuel st "x").1.log = startCount st.log)
      ∧ ((loadCall fuel st "y").2 = none
        ∧ startCount (loadCall fuel st "y").1.log = startCount st.log) := by
  intro fuel
  induction fuel with
  | zero =>
    intro st _
    exact ⟨⟨rfl, rfl⟩, ⟨rfl, rfl⟩⟩
  | succ fuel ih =>
    intro st hP
    obtain ⟨henv, hsx, hsy, hlx, hly⟩ := hP
    constructor
    · -- load("x") recurses into load("y") with an unchanged registry
      have hlkx : lookupKey st.env "x"
          = some { deps := some ["y"], setup := some ⟨0, false⟩, teardown := none } := by
        rw [henv]; rfl
      have hP2 : cycPre (addProm { st with log := st.log ++ [Ev.loading "x"] }) :=
        ⟨by simp [addProm, henv], by simp [addProm, hsx], by simp [addProm, hsy],
          by simp [addProm, hlx], by simp [addProm, hly]⟩
      have hy := (ih (addProm { st with log := st.log ++ [Ev.loading "x"] }) hP2).2
      rcases hcy : loadCall fuel (addProm { st with log := st.log ++ [Ev.loading "x"] }) "y"
        with ⟨sty, py⟩
      rw [hcy] at hy
      obtain ⟨hy1, hy2⟩ := hy
      have hpy : py = none := hy1
      subst hpy
      have hy2' : startCount sty.log
          = startCount (addProm { st with log := st.log ++ [Ev.loading "x"] }).log := hy2
      simp only [loadCall, hlkx, hsx, hlx, ite_false, loadDepsRun]
      rw [hcy]
      refine ⟨rfl, ?_⟩
      show startCount sty.log = startCount st.log
      rw [hy2']
      simp [addProm, startCount, List.countP_append]
    · -- symmetric step for load("y")
      have hlky : lookupKey st.env "y"
          = some { deps := some ["x"], setup := some ⟨0, false⟩, teardown := none } := by
        rw [henv]; rfl
      have hP2 : cycPre (addProm { st with log := st.log ++ [Ev.loading "y"] }) :=
        ⟨by simp [addProm, henv], by simp [addProm, hsx], by simp [addProm, hsy],
          by simp [addProm, hlx], by simp [addProm, hly]⟩
      have hx := (ih (addProm { st with log := st.log ++ [Ev.loading "y"] }) hP2).1
      rcases hcx : loadCall fuel (addProm { st with log := st.log ++ [Ev.loading "y"] }) "x"
        with ⟨stx, px⟩
      rw [hcx] at hx
      obtain ⟨hx1, hx2⟩ := hx
      have hpx : px = none := hx1
      subst hpx
      have hx2' : startCount stx.log
          = startCount (addProm { st with log := st.log ++ [Ev.loading "y"] }).log := hx2
      simp only [loadCall, hlky, hsy, hly, ite_false, loadDepsRun]
      rw [hcx]
      refine ⟨rfl, ?_⟩
      show startCount stx.log = startCount st.log
      rw [hx2']
      simp [addProm, startCount, List.countP_append]

/-- Claim C1 (corrected): on the cyclic registry `x ↔ y`, `load("x")`
never completes within ANY execution budget — the dependency recursion
revisits the cycle forever because nothing is registered in
`setupPromises` before the `Promise.all` of the dependencies (in real
JavaScript the unbounded synchronous recursion overflows the stack) —
and no setup callback is ever invoked.  No `CyclicDependencyError`
exists anywhere in the code: there is no cycle detection at all. -/
theorem load_cycle_diverges_no_setup :
    ∀ fuel, (loadRun envC1 "x" fuel).2 = (none, false)
      ∧ startCount (loadRun envC1 "x" fuel).1.log = 0 := by
  intro fuel
  have h := (loadCall_cyc_diverges fuel (initSt envC1)
    ⟨rfl, rfl, rfl, by simp [initSt], by simp [initSt]⟩).1
  rcases hc : loadCall fuel (initSt envC1) "x" with ⟨st1, p?⟩
  rw [hc] at h
  obtain ⟨h1, h2⟩ := h
  simp only at h1 h2
  subst h1
  unfold loadRun
  rw [hc]
  exact ⟨rfl, by simpa [initSt, startCount] using h2⟩

set_option maxRecDepth 8000 in
/-- Counterexample to claim C1 as stated: at a generous concrete budget
the cyclic `load("x")` has neither resolved nor rejected — in particular
it has not rejected with any cyclic-dependency error — and no setup
callback has run. -/
theorem load_cycle_no_rejection_cex :
    (loadRun envC1 "x" 100).2 = (none, false)
    ∧ startCount (loadRun envC1 "x" 100).1.log = 0 := by
  refine ⟨by decide, by decide⟩

end PWData
